import Mathlib

/-!
Shallow embedding of the sparse-matrix package `sl` (files `matrix.go`,
`matrix_test.go`).

Modelling conventions:

* Go `float64` is modelled by `GoFloat`: an exact rational for finite values
  plus explicit `nan` / `posInf` / `negInf` constructors.  The only arithmetic
  the source performs on stored values is the duplicate-coalescing addition in
  `TransformTo`; the model performs it exactly (no rounding, no overflow to
  infinity).  Go's `-0.0` is conflated with `0.0`, matching the source's only
  use of zero (the comparisons `x != 0.0` / `m.Values[i] == 0.0`, which do not
  distinguish the two).
* Go `int` is modelled by `Int`; no operation in the source can overflow a
  64-bit integer for any input reachable through the API (indices are only
  compared and incremented by one).
* Go's `make([]T, 0, s)` panics at run time when the capacity `s` is negative,
  so `New` returns an `Option Matrix`, `none` exactly when the Go code panics.
* `sort.Slice` in the source is called with a comparator whose side effect
  swaps the companion arrays whenever it returns true.  That realises a joint
  sort of the parallel arrays only when every true comparison is immediately
  followed by a swap of the same two positions — which Go guarantees only in
  its insertion-sort path, taken for ranges of at most 12 elements; for longer
  ranges, pivot selection and partitioning call the comparator without a
  paired swap and the companion arrays desynchronize from the sorted slice.
  The model uses `List.insertionSort` on the zipped entries, i.e. the joint
  stable sort that the source's own comments, example and test document as
  the intent.  It therefore coincides with the Go executable exactly on
  executions whose sort calls stay within the insertion-sort regime (whole
  triplet array and every column range of at most 12 entries), and models the
  documented intended semantics beyond it.
* Array writes/reads out of range (which panic in Go) are modelled by the
  total Lean list operations (`List.set` / `List.getD` / `take` / `drop`);
  every theorem below that talks about matrices reachable through the API
  stays inside the in-range domain, where the model agrees with the source
  exactly.
-/

namespace sl

/-- Go `float64` value: exact finite rational, or NaN, or a signed infinity. -/
inductive GoFloat where
  | finite (q : ℚ)
  | nan
  | posInf
  | negInf
deriving DecidableEq, Repr

/-- Model of Go `math.IsNaN`. -/
def GoFloat.isNaN : GoFloat → Bool
  | .nan => true
  | _ => false

/-- Model of Go `math.IsInf(x, 0)` (infinity of either sign). -/
def GoFloat.isInf : GoFloat → Bool
  | .posInf => true
  | .negInf => true
  | _ => false

/-- IEEE-style addition on `GoFloat` (used only by duplicate coalescing in
`TransformTo`; the source only ever adds finite stored values, where this is
exact rational addition). -/
def GoFloat.add : GoFloat → GoFloat → GoFloat
  | .nan, _ => .nan
  | _, .nan => .nan
  | .posInf, .negInf => .nan
  | .negInf, .posInf => .nan
  | .posInf, _ => .posInf
  | _, .posInf => .posInf
  | .negInf, _ => .negInf
  | _, .negInf => .negInf
  | .finite a, .finite b => .finite (a + b)

/-- `MatrixType` is a Go `uint8`; we model the underlying integer so that the
`default:` branch of the validity switch in `TransformTo` (an unrecognized
variant) is representable.  The three declared constants follow. -/
def Ssm : Nat := 1

/-- Sparse lower triangular matrix format tag (`Sltm`). -/
def Sltm : Nat := 2

/-- Triplet matrix format tag (`Tm`). -/
def Tm : Nat := 3

/-- The `Matrix` struct of `matrix.go`. -/
structure Matrix where
  Format : Nat
  Size : Int
  Values : List GoFloat
  RowIndexes : List Int
  ColPos : List Int
deriving DecidableEq, Repr

/-- `New` (`matrix.go`).  `make([]float64, 0, s)` panics in Go when the
capacity `s` is negative, hence the `Option`. -/
def New (s : Int) : Option Matrix :=
  if s < 0 then none
  else some { Format := Tm, Size := s, Values := [], RowIndexes := [], ColPos := [] }

/-- The distinct complaints `Put` can add to its `errors.Tree`, one per
`et.Add` call site in the source (`matrixNil` corresponds to the `m == nil`
receiver check, which has no counterpart in the model since Lean values are
never nil; it is listed for completeness of the enumeration). -/
inductive PutErr where
  | matrixNil
  | notTriplet
  | rowNeg
  | rowOut
  | colNeg
  | colOut
  | rowLtCol
  | nanValue
  | infValue
deriving DecidableEq, Repr

/-- The validation phase of `Put`: the list of complaints collected by the
`errors.Tree`, in source order. -/
def putErrs (m : Matrix) (r c : Int) (x : GoFloat) : List PutErr :=
  if m.Format ≠ Tm then [PutErr.notTriplet]
  else
    (if r < 0 then [PutErr.rowNeg] else []) ++
    (if r ≥ m.Size then [PutErr.rowOut] else []) ++
    (if c < 0 then [PutErr.colNeg] else []) ++
    (if c ≥ m.Size then [PutErr.colOut] else []) ++
    (if r < c then [PutErr.rowLtCol] else []) ++
    (if x.isNaN then [PutErr.nanValue] else []) ++
    (if x.isInf then [PutErr.infValue] else [])

/-- `Put` (`matrix.go`): validate, then append the entry to the three parallel
arrays unless the value is exactly zero.  Returns the updated matrix together
with the list of complaints (empty list = `nil` error). -/
def put (m : Matrix) (r c : Int) (x : GoFloat) : Matrix × List PutErr :=
  let errs := putErrs m r c x
  if errs ≠ [] then (m, errs)
  else if x ≠ GoFloat.finite 0 then
    ({ m with
        RowIndexes := m.RowIndexes ++ [r]
        ColPos := m.ColPos ++ [c]
        Values := m.Values ++ [x] }, [])
  else (m, [])

/-- One (value, row index, column position) entry of the three parallel
arrays, used to model the joint sorting that `TransformTo` performs through
`sort.Slice` comparators with swapping side effects. -/
structure Entry where
  val : GoFloat
  row : Int
  col : Int
deriving DecidableEq, Repr

/-- The three parallel arrays of a matrix viewed as a single list of entries. -/
def toEntries (m : Matrix) : List Entry :=
  (m.Values.zip (m.RowIndexes.zip m.ColPos)).map fun p => ⟨p.1, p.2.1, p.2.2⟩

/-- Comparison used by the first `sort.Slice` call (ascending column). -/
def colLe (a b : Entry) : Prop := a.col ≤ b.col

/-- Comparison used by the per-column `sort.Slice` calls (ascending row). -/
def rowLe (a b : Entry) : Prop := a.row ≤ b.row

instance : DecidableRel colLe := fun a b => inferInstanceAs (Decidable (a.col ≤ b.col))

instance : DecidableRel rowLe := fun a b => inferInstanceAs (Decidable (a.row ≤ b.row))

instance : IsTotal Entry colLe := ⟨fun a b => Int.le_total a.col b.col⟩

instance : IsTrans Entry colLe := ⟨fun _ _ _ h h' => le_trans h h'⟩

instance : IsTotal Entry rowLe := ⟨fun a b => Int.le_total a.row b.row⟩

instance : IsTrans Entry rowLe := ⟨fun _ _ _ h h' => le_trans h h'⟩

/-- The counting pass of the `compressCol` closure in `TransformTo`:
`cp := make([]int, m.Size+1); for i := range colpos { cp[colpos[i]+1]++ }`.
An out-of-range bucket write (a Go panic) is a no-op here (`List.set`). -/
def countCols (size : Int) (cols : List Int) : List Int :=
  cols.foldl (fun cp c => cp.set (c + 1).toNat (cp.getD (c + 1).toNat 0 + 1))
    (List.replicate (size + 1).toNat 0)

/-- The cumulative-sum pass of the `compressCol` closure:
`for i := range cp { if i == 0 { continue }; cp[i] += cp[i-1] }`. -/
def cumsum : Int → List Int → List Int
  | _, [] => []
  | acc, x :: xs => (acc + x) :: cumsum (acc + x) xs

/-- The `compressCol` closure of `TransformTo`. -/
def compressCol (size : Int) (cols : List Int) : List Int :=
  cumsum 0 (countCols size cols)

/-- One iteration of the per-column sorting loop of `TransformTo`: sort the
half-open range `[a, b)` of the entry list by ascending row.  In Go this is
`sort.Slice(m.RowIndexes[a:b], ...)` with the comparator swapping the values
array alongside; the comparator side effect realises this joint sort only
while the range stays in Go's insertion-sort path (length at most 12), so
this definition is the documented intent, faithful to the executable on
ranges of at most 12 entries (see the module comment). -/
def sortSlice (a b : Nat) (l : List Entry) : List Entry :=
  l.take a ++ List.insertionSort rowLe ((l.drop a).take (b - a)) ++ l.drop (a + (b - a))

/-- The per-column sorting loop of `TransformTo`:
`for k := 1; k < len(cp); k++ { sort.Slice(m.RowIndexes[cp[k-1]:cp[k]], ...) }`. -/
def sortRanges (cp : List Int) (l : List Entry) : List Entry :=
  (cp.zip cp.tail).foldl (fun t p => sortSlice p.1.toNat p.2.toNat t) l

/-- The duplicate-summing scan of `TransformTo`, with the current predecessor
entry (the already-scanned slot `i-1`) held in the first argument. -/
def coalesceAux (x : Entry) : List Entry → List Entry
  | [] => [x]
  | y :: rest =>
    if y.col = x.col ∧ y.row = x.row then
      { x with val := GoFloat.finite 0 } ::
        coalesceAux { y with val := y.val.add x.val } rest
    else
      x :: coalesceAux y rest

/-- The duplicate-summing scan of `TransformTo`: left to right, whenever an
entry has the same column and row as its immediate predecessor, add the
predecessor's value into it (`m.Values[i] += m.Values[i-1]`) and zero the
predecessor (`m.Values[i-1] = 0.0`). -/
def coalesce : List Entry → List Entry
  | [] => []
  | x :: rest => coalesceAux x rest

/-- The whole triplet-to-compressed body of `TransformTo` (everything after
the two simple-transformation early returns, except the final format-tag
assignment): joint sort by column, build the offset table, sort rows within
each column range, coalesce duplicates, drop zero values, rebuild the offset
table from the surviving columns.  The two sorts are the joint stable sorts
that the source documents as the intent; the executable's comparator-side-
effect realisation provides them only while each `sort.Slice` call stays in
Go's insertion-sort path (at most 12 elements), so this definition agrees
with the Go executable exactly on such executions (the module comment
details the divergence beyond that regime). -/
def compressStep (m : Matrix) : Matrix :=
  let t1 := List.insertionSort colLe (toEntries m)
  let cp := compressCol m.Size (t1.map Entry.col)
  let t2 := sortRanges cp t1
  let t4 := (coalesce t2).filter fun e => e.val ≠ GoFloat.finite 0
  { m with
      Values := t4.map Entry.val
      RowIndexes := t4.map Entry.row
      ColPos := compressCol m.Size (t4.map Entry.col) }

/-- The single complaint `TransformTo` can raise (the `default:` branch of the
target-format switch). -/
inductive TransErr where
  | notValidType
deriving DecidableEq, Repr

/-- `TransformTo` (`matrix.go`): validate the target tag, then no-op /
relabel / compress according to the case analysis of the source. -/
def transformTo (m : Matrix) (mt : Nat) : Matrix × List TransErr :=
  if mt = Ssm ∨ mt = Sltm ∨ mt = Tm then
    if m.Format = mt then (m, [])
    else if (m.Format = Ssm ∧ mt = Sltm) ∨ (m.Format = Sltm ∧ mt = Ssm) then
      ({ m with Format := mt }, [])
    else
      ({ compressStep m with Format := mt }, [])
  else (m, [TransErr.notValidType])

/-- A sequence of `Put` calls applied in order (each call's error, if any,
leaves the matrix unchanged, exactly as in the source). -/
def applyPuts (m : Matrix) (ops : List (Int × Int × GoFloat)) : Matrix :=
  ops.foldl (fun m op => (put m op.1 op.2.1 op.2.2).1) m

/-- Non-strict lexicographic order on (column, row), the key the conversion
algorithm sorts by (column first, then row within equal columns). -/
def lexLe (a b : Entry) : Prop := a.col < b.col ∨ (a.col = b.col ∧ a.row ≤ b.row)

/-- Strict lexicographic order on (column, row). -/
def lexLt (a b : Entry) : Prop := a.col < b.col ∨ (a.col = b.col ∧ a.row < b.row)

/-- Well-formedness of a triplet matrix reachable through `New` and `put`:
triplet tag, nonnegative size, three arrays of equal length, and every entry
inside the lower triangle of the matrix. -/
def Wf (m : Matrix) : Prop :=
  m.Format = Tm ∧ 0 ≤ m.Size ∧
  m.RowIndexes.length = m.Values.length ∧ m.ColPos.length = m.Values.length ∧
  ∀ e ∈ toEntries m, 0 ≤ e.col ∧ e.col ≤ e.row ∧ e.row < m.Size

/-! ## Theorems -/

/-! ### Order helpers for the (column, row) sort key -/

theorem lexLe_trans {a b c : Entry} (h1 : lexLe a b) (h2 : lexLe b c) : lexLe a c := by
  rcases h1 with h1 | ⟨h1, h1'⟩ <;> rcases h2 with h2 | ⟨h2, h2'⟩ <;>
    simp only [lexLe] <;> omega

theorem lexLt_of_lexLe_of_key_ne {a b : Entry} (h : lexLe a b)
    (hne : ¬(a.col = b.col ∧ a.row = b.row)) : lexLt a b := by
  rcases h with h | ⟨h, h'⟩ <;> simp only [lexLt] <;> omega

theorem lexLt_of_lexLt_of_lexLe {a b c : Entry} (h1 : lexLt a b) (h2 : lexLe b c) :
    lexLt a c := by
  rcases h1 with h1 | ⟨h1, h1'⟩ <;> rcases h2 with h2 | ⟨h2, h2'⟩ <;>
    simp only [lexLt] <;> omega

theorem colLe_of_lexLt {a b : Entry} (h : lexLt a b) : colLe a b := by
  rcases h with h | ⟨h, _⟩ <;> simp only [colLe] <;> omega

/-- `lexLe` and `lexLt` only look at the sort key (column, row). -/
theorem lexLt_congr_right {a b b' : Entry} (hrow : b'.row = b.row) (hcol : b'.col = b.col)
    (h : lexLt a b) : lexLt a b' := by
  rcases h with h | ⟨h, h'⟩ <;> simp only [lexLt] <;> omega

/-! ### Well-formedness is established by `New` and preserved by `put` -/

theorem wf_new {s : Int} {m : Matrix} (h : New s = some m) : Wf m := by
  rw [New] at h
  split_ifs at h with hs
  obtain rfl := Option.some.inj h
  refine ⟨rfl, not_lt.mp hs, rfl, rfl, ?_⟩
  intro e he
  simp [toEntries] at he

theorem toEntries_append (m : Matrix) (r c : Int) (x : GoFloat)
    (h1 : m.RowIndexes.length = m.Values.length)
    (h2 : m.ColPos.length = m.Values.length) :
    toEntries { m with
        RowIndexes := m.RowIndexes ++ [r]
        ColPos := m.ColPos ++ [c]
        Values := m.Values ++ [x] } =
      toEntries m ++ [⟨x, r, c⟩] := by
  have hz : (m.RowIndexes ++ [r]).zip (m.ColPos ++ [c]) =
      m.RowIndexes.zip m.ColPos ++ [(r, c)] := by
    rw [List.zip_append (by omega)]
    rfl
  have hlen : (m.RowIndexes.zip m.ColPos).length = m.Values.length := by
    rw [List.length_zip]
    omega
  simp only [toEntries, hz]
  rw [List.zip_append (by omega)]
  simp

theorem putErrs_eq_nil_checks {m : Matrix} {r c : Int} {x : GoFloat}
    (hf : m.Format = Tm) (h : putErrs m r c x = []) :
    0 ≤ r ∧ r < m.Size ∧ 0 ≤ c ∧ c < m.Size ∧ c ≤ r := by
  rw [putErrs, if_neg (by simp [hf])] at h
  simp only [List.append_eq_nil] at h
  have hnil : ∀ (p : Prop) [Decidable p] (e : PutErr),
      (if p then [e] else []) = ([] : List PutErr) → ¬p := by
    intro p _ e he
    by_contra hp
    rw [if_pos hp] at he
    exact absurd he (by simp)
  obtain ⟨⟨⟨⟨⟨⟨e1, e2⟩, e3⟩, e4⟩, e5⟩, _⟩, _⟩ := h
  have := hnil _ _ e1
  have := hnil _ _ e2
  have := hnil _ _ e3
  have := hnil _ _ e4
  have := hnil _ _ e5
  omega

theorem wf_put (m : Matrix) (r c : Int) (x : GoFloat) (hwf : Wf m) :
    Wf (put m r c x).1 := by
  obtain ⟨hf, hs, hl1, hl2, hent⟩ := hwf
  by_cases he : putErrs m r c x = []
  · by_cases hx : x ≠ GoFloat.finite 0
    · have hput : (put m r c x).1 = { m with
          RowIndexes := m.RowIndexes ++ [r]
          ColPos := m.ColPos ++ [c]
          Values := m.Values ++ [x] } := by
        rw [put]
        simp [he, hx]
      rw [hput]
      obtain ⟨b1, b2, b3, b4, b5⟩ := putErrs_eq_nil_checks hf he
      refine ⟨hf, hs, by simp [hl1], by simp [hl2], ?_⟩
      rw [toEntries_append m r c x hl1 hl2]
      intro e hemem
      rcases List.mem_append.mp hemem with hh | hh
      · exact hent e hh
      · obtain rfl := List.mem_singleton.mp hh
        exact ⟨b3, b5, b2⟩
    · have hput : (put m r c x).1 = m := by
        rw [put]
        simp [he, hx]
      rw [hput]
      exact ⟨hf, hs, hl1, hl2, hent⟩
  · have hput : (put m r c x).1 = m := by
      rw [put]
      simp [he]
    rw [hput]
    exact ⟨hf, hs, hl1, hl2, hent⟩

theorem wf_applyPuts (ops : List (Int × Int × GoFloat)) :
    ∀ (m : Matrix), Wf m → Wf (applyPuts m ops) := by
  induction ops with
  | nil => intro m h; exact h
  | cons op rest ih =>
    intro m h
    rw [applyPuts, List.foldl_cons]
    exact ih _ (wf_put m op.1 op.2.1 op.2.2 h)

/-! ### Counting characterization of `compressCol` -/

theorem cumsum_length (l : List Int) : ∀ a : Int, (cumsum a l).length = l.length := by
  induction l with
  | nil => intro a; rfl
  | cons x xs ih =>
    intro a
    show (cumsum (a + x) xs).length + 1 = xs.length + 1
    rw [ih]

theorem countCols_length (size : Int) (cols : List Int) :
    (countCols size cols).length = (size + 1).toNat := by
  suffices h : ∀ (init : List Int), (cols.foldl
      (fun cp c => cp.set (c + 1).toNat (cp.getD (c + 1).toNat 0 + 1)) init).length =
      init.length by
    rw [countCols, h, List.length_replicate]
  intro init
  induction cols generalizing init with
  | nil => rfl
  | cons c cs ih => rw [List.foldl_cons, ih, List.length_set]

theorem compressCol_length (size : Int) (cols : List Int) :
    (compressCol size cols).length = (size + 1).toNat := by
  rw [compressCol, cumsum_length, countCols_length]

theorem cumsum_getD (l : List Int) : ∀ (a : Int) (j : Nat), j < l.length →
    (cumsum a l).getD j 0 = a + (l.take (j + 1)).sum := by
  induction l with
  | nil => intro a j hj; simp at hj
  | cons x xs ih =>
    intro a j hj
    cases j with
    | zero => simp [cumsum]
    | succ j' =>
      have h0 : (cumsum a (x :: xs)).getD (j' + 1) 0 = (cumsum (a + x) xs).getD j' 0 := rfl
      rw [h0, ih (a + x) j' (by simpa using hj), List.take_succ_cons, List.sum_cons]
      ring

theorem take_sum_set (l : List Int) : ∀ (i : Nat) (v : Int) (j : Nat), i < l.length →
    ((l.set i v).take (j + 1)).sum =
      (l.take (j + 1)).sum + (if i ≤ j then v - l.getD i 0 else 0) := by
  induction l with
  | nil => intro i v j hi; simp at hi
  | cons x xs ih =>
    intro i v j hi
    cases i with
    | zero =>
      rw [List.set_cons_zero, List.take_succ_cons, List.take_succ_cons]
      simp only [List.sum_cons, List.getD_cons_zero, if_pos (Nat.zero_le j)]
      ring
    | succ i' =>
      cases j with
      | zero => simp [List.set_cons_succ, List.take_succ_cons]
      | succ j' =>
        rw [List.set_cons_succ, List.take_succ_cons, List.take_succ_cons]
        simp only [List.sum_cons, List.getD_cons_succ, Nat.add_le_add_iff_right]
        rw [ih i' v j' (by simpa using hi)]
        ring

theorem cumsum_replicate_zero : ∀ (n : Nat) (a : Int),
    cumsum a (List.replicate n 0) = List.replicate n a := by
  intro n
  induction n with
  | zero => intro a; rfl
  | succ n' ih =>
    intro a
    show (a + 0) :: cumsum (a + 0) (List.replicate n' 0) = a :: List.replicate n' a
    rw [add_zero, ih]

theorem countCols_append (size : Int) (cols : List Int) (c : Int) :
    countCols size (cols ++ [c]) =
      (countCols size cols).set (c + 1).toNat
        ((countCols size cols).getD (c + 1).toNat 0 + 1) := by
  rw [countCols, List.foldl_append]
  rfl

theorem compressCol_getD (size : Int) (cols : List Int)
    (hb : ∀ c ∈ cols, 0 ≤ c ∧ c < size) :
    ∀ (j : Nat), j < (size + 1).toNat →
    (compressCol size cols).getD j 0 =
      (cols.countP (fun c => decide (c < (j : Int))) : Int) := by
  induction cols using List.reverseRecOn with
  | nil =>
    intro j hj
    rw [compressCol, countCols, List.foldl_nil, cumsum_replicate_zero]
    rw [List.getD_eq_getElem _ _ (by simpa using hj), List.getElem_replicate]
    simp
  | append_singleton cs c ih =>
    intro j hj
    have hbcs : ∀ c' ∈ cs, 0 ≤ c' ∧ c' < size := fun c' h => hb c' (by simp [h])
    have hbc : 0 ≤ c ∧ c < size := hb c (by simp)
    have hlen : (countCols size cs).length = (size + 1).toNat := countCols_length size cs
    have hidx : (c + 1).toNat < (countCols size cs).length := by
      rw [hlen]; omega
    rw [compressCol, countCols_append, cumsum_getD _ 0 j (by rw [List.length_set, hlen]; exact hj)]
    rw [take_sum_set _ _ _ _ hidx]
    have hprev : (0 : Int) + ((countCols size cs).take (j + 1)).sum =
        (cs.countP (fun c' => decide (c' < (j : Int))) : Int) := by
      rw [← cumsum_getD _ 0 j (by rw [hlen]; exact hj)]
      exact ih hbcs j hj
    rw [List.countP_append]
    have hone : (List.countP (fun c' => decide (c' < (j : Int))) [c] : Int) =
        (if (c + 1).toNat ≤ j then ((countCols size cs).getD (c + 1).toNat 0 + 1) -
          (countCols size cs).getD (c + 1).toNat 0 else 0) := by
      by_cases hcj : c < (j : Int)
      · rw [List.countP_singleton, if_pos (by simpa using hcj), if_pos (by omega)]
        omega
      · rw [List.countP_singleton, if_neg (by simpa using hcj), if_neg (by omega)]
        simp
    push_cast
    push_cast at hprev
    omega

/-! ### Rank characterization of positions in a sorted list -/

theorem sorted_rank (l : List Int) (hs : List.Pairwise (· ≤ ·) l) (i : Nat)
    (hi : i < l.length) (x : Int) (hx : l.getD i 0 = x) :
    l.countP (fun c => decide (c < x)) ≤ i ∧
    i < l.countP (fun c => decide (c ≤ x)) := by
  have hxe : l[i] = x := by
    rw [← hx, List.getD_eq_getElem _ _ hi]
  constructor
  · have hdrop : (l.drop i).countP (fun c => decide (c < x)) = 0 := by
      rw [List.countP_eq_zero]
      intro a ha
      obtain ⟨t, ht, rfl⟩ := List.mem_iff_getElem.mp ha
      have hlen := ht
      rw [List.length_drop] at hlen
      rw [List.getElem_drop]
      simp only [decide_eq_true_eq, not_lt]
      rcases Nat.eq_zero_or_pos t with rfl | hpos
      · exact le_of_eq hxe.symm
      · rw [← hxe]
        exact List.pairwise_iff_getElem.mp hs i (i + t) hi (by omega) (by omega)
    have hsplit : (l.take i).countP (fun c => decide (c < x)) +
        (l.drop i).countP (fun c => decide (c < x)) =
        l.countP (fun c => decide (c < x)) := by
      rw [← List.countP_append, List.take_append_drop]
    have hlen := List.countP_le_length (fun c => decide (c < x)) (l := l.take i)
    rw [List.length_take] at hlen
    omega
  · have hlen : (l.take (i + 1)).length = i + 1 := by
      rw [List.length_take]
      omega
    have htake : (l.take (i + 1)).countP (fun c => decide (c ≤ x)) = i + 1 := by
      have hall : (l.take (i + 1)).countP (fun c => decide (c ≤ x)) =
          (l.take (i + 1)).length := by
        apply List.countP_eq_length.mpr
        intro a ha
        obtain ⟨t, ht, rfl⟩ := List.mem_iff_getElem.mp ha
        have ht' : t < i + 1 := by
          rw [hlen] at ht
          exact ht
        have htlen : t < l.length := by omega
        rw [List.getElem_take]
        simp only [decide_eq_true_eq]
        rcases Nat.lt_or_ge t i with hti | hti
        · rw [← hxe]
          exact List.pairwise_iff_getElem.mp hs t i htlen hi hti
        · have ht0 : t = i := by omega
          subst ht0
          exact le_of_eq hxe
      rw [hall, hlen]
    have hsplit : (l.take (i + 1)).countP (fun c => decide (c ≤ x)) +
        (l.drop (i + 1)).countP (fun c => decide (c ≤ x)) =
        l.countP (fun c => decide (c ≤ x)) := by
      rw [← List.countP_append, List.take_append_drop]
    omega

/-- In a column-sorted entry list with in-range columns, the positions lying
in the `k`-th offset range of `compressCol` hold exactly column `k`. -/
theorem col_at_of_sorted (size : Int) (es : List Entry)
    (hs : List.Sorted colLe es) (hb : ∀ e ∈ es, 0 ≤ e.col ∧ e.col < size)
    (k : Int) (hk0 : 0 ≤ k) (hk : k < size)
    (i : Nat) (hi : i < es.length)
    (h1 : ((compressCol size (es.map Entry.col)).getD k.toNat 0).toNat ≤ i)
    (h2 : (i : Int) < (compressCol size (es.map Entry.col)).getD (k.toNat + 1) 0) :
    (es.get ⟨i, hi⟩).col = k := by
  have hbc : ∀ c ∈ es.map Entry.col, 0 ≤ c ∧ c < size := by
    intro c hc
    obtain ⟨e, he, rfl⟩ := List.mem_map.mp hc
    exact hb e he
  have hg1 := compressCol_getD size (es.map Entry.col) hbc k.toNat (by omega)
  have hg2 := compressCol_getD size (es.map Entry.col) hbc (k.toNat + 1) (by omega)
  rw [Int.toNat_of_nonneg hk0] at hg1
  have hcast2 : (((k.toNat + 1 : Nat)) : Int) = k + 1 := by omega
  rw [hcast2] at hg2
  rw [hg1] at h1
  rw [hg2] at h2
  rw [Int.toNat_natCast] at h1
  have h2' : i < (es.map Entry.col).countP (fun c => decide (c < k + 1)) := by
    exact_mod_cast h2
  have hsorted : List.Pairwise (· ≤ ·) (es.map Entry.col) :=
    List.pairwise_map.mpr hs
  have hilen : i < (es.map Entry.col).length := by
    rw [List.length_map]
    exact hi
  have hxcol : (es.map Entry.col).getD i 0 = (es.get ⟨i, hi⟩).col := by
    rw [List.getD_eq_getElem _ _ hilen, List.getElem_map]
    rfl
  obtain ⟨hlow, hup⟩ := sorted_rank (es.map Entry.col) hsorted i hilen _ hxcol
  rcases lt_trichotomy ((es.get ⟨i, hi⟩).col) k with hlt | heq | hgt
  · exfalso
    have hmono : (es.map Entry.col).countP (fun c => decide (c ≤ (es.get ⟨i, hi⟩).col)) ≤
        (es.map Entry.col).countP (fun c => decide (c < k)) := by
      apply List.countP_mono_left
      intro c _ hc
      simp only [decide_eq_true_eq] at *
      omega
    omega
  · exact heq
  · exfalso
    have hmono : (es.map Entry.col).countP (fun c => decide (c < k + 1)) ≤
        (es.map Entry.col).countP (fun c => decide (c < (es.get ⟨i, hi⟩).col)) := by
      apply List.countP_mono_left
      intro c _ hc
      simp only [decide_eq_true_eq] at *
      omega
    omega

/-! ### The per-column sorting loop -/

theorem sortRanges_single (a : Int) (l : List Entry) : sortRanges [a] l = l := rfl

theorem sortRanges_cons_cons (a b : Int) (cps : List Int) (l : List Entry) :
    sortRanges (a :: b :: cps) l =
      sortRanges (b :: cps) (sortSlice a.toNat b.toNat l) := rfl

theorem pairwise_head_le_getD {b : Int} {t : List Int}
    (h : List.Pairwise (· ≤ ·) (b :: t)) (j : Nat) (hj : j < t.length + 1) :
    b ≤ (b :: t).getD j 0 := by
  cases j with
  | zero => simp
  | succ j' =>
    have hlt : j' + 1 < (b :: t).length := by
      simp only [List.length_cons]
      omega
    rw [List.getD_eq_getElem _ _ hlt]
    exact List.pairwise_iff_getElem.mp h 0 (j' + 1) (by simp) hlt (by omega)

theorem get_idx_congr {α : Type} (l : List α) {i j : Nat} (h : i = j) (hj : j < l.length) :
    l.get ⟨i, h ▸ hj⟩ = l.get ⟨j, hj⟩ := by
  subst h
  rfl

theorem sortSlice_decomp (a b : Nat) (l : List Entry) (hab : a ≤ b) :
    sortSlice a b l =
      l.take a ++ (List.insertionSort rowLe ((l.drop a).take (b - a)) ++ l.drop b) := by
  have h : a + (b - a) = b := by omega
  rw [sortSlice, h, List.append_assoc]

theorem list_decomp (a b : Nat) (l : List Entry) (hab : a ≤ b) :
    l = l.take a ++ ((l.drop a).take (b - a) ++ l.drop b) := by
  have h2 : (l.drop a).drop (b - a) = l.drop b := by
    rw [List.drop_drop]
    congr 1
    omega
  calc l = l.take a ++ l.drop a := (List.take_append_drop a l).symm
    _ = l.take a ++ ((l.drop a).take (b - a) ++ (l.drop a).drop (b - a)) := by
        conv_rhs => rw [List.take_append_drop]
    _ = l.take a ++ ((l.drop a).take (b - a) ++ l.drop b) := by rw [h2]

/-- Main invariant of the per-column sorting loop of `TransformTo`: starting
from a position list whose head offset delimits an already-sorted prefix of
columns `< k` and whose consecutive offset pairs delimit the constant-column
blocks `k`, `k+1`, …, the loop leaves the columns in place, permutes entries
only inside blocks, and produces a list sorted by (column, row). -/
theorem sortRanges_main (cps : List Int) :
    ∀ (a k : Int) (l : List Entry),
    0 ≤ a →
    List.Pairwise (· ≤ ·) (a :: cps) →
    (a :: cps).getD cps.length 0 = (l.length : Int) →
    List.Sorted lexLe (l.take a.toNat) →
    (∀ e ∈ l.take a.toNat, e.col < k) →
    (∀ (j : Nat), j < cps.length → ∀ (i : Nat) (hi : i < l.length),
        ((a :: cps).getD j 0).toNat ≤ i → (i : Int) < (a :: cps).getD (j + 1) 0 →
        (l.get ⟨i, hi⟩).col = k + j) →
    List.Sorted lexLe (sortRanges (a :: cps) l) ∧
    (sortRanges (a :: cps) l).map Entry.col = l.map Entry.col ∧
    (sortRanges (a :: cps) l).Perm l := by
  induction cps with
  | nil =>
    intro a k l ha hchain hlast hpre hprecol hblocks
    have hal : a = (l.length : Int) := hlast
    have htake : l.take a.toNat = l := List.take_of_length_le (by omega)
    rw [sortRanges_single]
    refine ⟨?_, rfl, List.Perm.refl l⟩
    rw [← htake]
    exact hpre
  | cons b cps' ih =>
    intro a k l ha hchain hlast hpre hprecol hblocks
    have hab : a ≤ b := (List.pairwise_cons.mp hchain).1 b (by simp)
    have hchain' : List.Pairwise (· ≤ ·) (b :: cps') := (List.pairwise_cons.mp hchain).2
    have hb0 : 0 ≤ b := le_trans ha hab
    have hlast' : (b :: cps').getD cps'.length 0 = (l.length : Int) := hlast
    have hble : b ≤ (l.length : Int) := by
      have h := pairwise_head_le_getD hchain' cps'.length (by omega)
      rw [hlast'] at h
      exact h
    have hAB : a.toNat ≤ b.toNat := Int.toNat_le_toNat hab
    have hBlen : b.toNat ≤ l.length := by omega
    have hslen : ((l.drop a.toNat).take (b.toNat - a.toNat)).length = b.toNat - a.toNat := by
      rw [List.length_take, List.length_drop]
      omega
    have hSlen : (List.insertionSort rowLe ((l.drop a.toNat).take (b.toNat - a.toNat))).length =
        b.toNat - a.toNat := by
      rw [List.length_insertionSort, hslen]
    have hSperm : (List.insertionSort rowLe ((l.drop a.toNat).take (b.toNat - a.toNat))).Perm
        ((l.drop a.toNat).take (b.toNat - a.toNat)) := List.perm_insertionSort _ _
    have hssorted : List.Sorted rowLe
        (List.insertionSort rowLe ((l.drop a.toNat).take (b.toNat - a.toNat))) :=
      List.sorted_insertionSort _ _
    -- every entry of the `[a, b)` slice has column `k`
    have hslicecol : ∀ e ∈ (l.drop a.toNat).take (b.toNat - a.toNat), e.col = k := by
      intro e he
      obtain ⟨t, ht, rfl⟩ := List.mem_iff_getElem.mp he
      have ht' : t < b.toNat - a.toNat := by
        rw [hslen] at ht
        exact ht
      have hidx : a.toNat + t < l.length := by omega
      have hgt : ((l.drop a.toNat).take (b.toNat - a.toNat))[t] =
          l.get ⟨a.toNat + t, hidx⟩ := by
        rw [List.getElem_take, List.getElem_drop]
        rfl
      rw [hgt]
      have hcol := hblocks 0 (by simp) (a.toNat + t) hidx
        (by simp only [List.getD_cons_zero]; omega)
        (by simp only [List.getD_cons_succ, List.getD_cons_zero]; omega)
      simpa using hcol
    have hScol : ∀ e ∈ List.insertionSort rowLe ((l.drop a.toNat).take (b.toNat - a.toNat)),
        e.col = k := by
      intro e he
      exact hslicecol e (hSperm.mem_iff.mp he)
    have hmapS : (List.insertionSort rowLe ((l.drop a.toNat).take (b.toNat - a.toNat))).map
        Entry.col = ((l.drop a.toNat).take (b.toNat - a.toNat)).map Entry.col := by
      have h1 : (List.insertionSort rowLe ((l.drop a.toNat).take (b.toNat - a.toNat))).map
          Entry.col = List.replicate (b.toNat - a.toNat) k := by
        rw [List.eq_replicate_iff]
        refine ⟨by rw [List.length_map, hSlen], ?_⟩
        intro c hc
        obtain ⟨e, he, rfl⟩ := List.mem_map.mp hc
        exact hScol e he
      have h2 : ((l.drop a.toNat).take (b.toNat - a.toNat)).map Entry.col =
          List.replicate (b.toNat - a.toNat) k := by
        rw [List.eq_replicate_iff]
        refine ⟨by rw [List.length_map, hslen], ?_⟩
        intro c hc
        obtain ⟨e, he, rfl⟩ := List.mem_map.mp hc
        exact hslicecol e he
      rw [h1, h2]
    have hmapl' : (sortSlice a.toNat b.toNat l).map Entry.col = l.map Entry.col := by
      have hr : l.map Entry.col =
          (l.take a.toNat ++ ((l.drop a.toNat).take (b.toNat - a.toNat) ++
            l.drop b.toNat)).map Entry.col :=
        congrArg (List.map Entry.col) (list_decomp a.toNat b.toNat l hAB)
      rw [sortSlice_decomp a.toNat b.toNat l hAB, hr]
      simp only [List.map_append]
      rw [hmapS]
    have hperm' : (sortSlice a.toNat b.toNat l).Perm l := by
      rw [sortSlice_decomp a.toNat b.toNat l hAB]
      have hp : (l.take a.toNat ++ (List.insertionSort rowLe
          ((l.drop a.toNat).take (b.toNat - a.toNat)) ++ l.drop b.toNat)).Perm
          (l.take a.toNat ++ ((l.drop a.toNat).take (b.toNat - a.toNat) ++ l.drop b.toNat)) :=
        List.Perm.append_left _ (List.Perm.append hSperm (List.Perm.refl _))
      rw [← list_decomp a.toNat b.toNat l hAB] at hp
      exact hp
    have hlen' : (sortSlice a.toNat b.toNat l).length = l.length := hperm'.length_eq
    have hlen2 : (l.take a.toNat ++ List.insertionSort rowLe
        ((l.drop a.toNat).take (b.toNat - a.toNat))).length = b.toNat := by
      rw [List.length_append, List.length_take, hSlen]
      omega
    have htake' : (sortSlice a.toNat b.toNat l).take b.toNat =
        l.take a.toNat ++ List.insertionSort rowLe ((l.drop a.toNat).take
          (b.toNat - a.toNat)) := by
      rw [sortSlice_decomp a.toNat b.toNat l hAB, ← List.append_assoc, List.take_left' hlen2]
    have hdrop' : (sortSlice a.toNat b.toNat l).drop b.toNat = l.drop b.toNat := by
      rw [sortSlice_decomp a.toNat b.toNat l hAB, ← List.append_assoc, List.drop_left' hlen2]
    have hgetBeyond : ∀ (t : Nat) (h : b.toNat + t < l.length),
        (sortSlice a.toNat b.toNat l).get ⟨b.toNat + t, by rw [hlen']; exact h⟩ =
          l.get ⟨b.toNat + t, h⟩ := by
      intro t h
      have ht1 : t < ((sortSlice a.toNat b.toNat l).drop b.toNat).length := by
        rw [List.length_drop, hlen']
        omega
      have h1 : ((sortSlice a.toNat b.toNat l).drop b.toNat)[t] =
          (sortSlice a.toNat b.toNat l)[b.toNat + t] := List.getElem_drop _
      have ht2 : t < (l.drop b.toNat).length := by
        rw [List.length_drop]
        omega
      have h2 : (l.drop b.toNat)[t] = l[b.toNat + t] := List.getElem_drop _
      simp only [hdrop'] at h1
      show (sortSlice a.toNat b.toNat l)[b.toNat + t] = l[b.toNat + t]
      rw [← h1, h2]
    -- the new prefix of length `b` is sorted and holds columns `< k + 1`
    have hpre' : List.Sorted lexLe ((sortSlice a.toNat b.toNat l).take b.toNat) := by
      rw [htake']
      rw [List.Sorted, List.pairwise_append]
      refine ⟨hpre, ?_, ?_⟩
      · exact List.Pairwise.imp_of_mem
          (fun ha' hb' hr => Or.inr ⟨by rw [hScol _ ha', hScol _ hb'], hr⟩) hssorted
      · intro e he e' he'
        left
        rw [hScol e' he']
        exact hprecol e he
    have hprecol' : ∀ e ∈ (sortSlice a.toNat b.toNat l).take b.toNat, e.col < k + 1 := by
      rw [htake']
      intro e he
      rcases List.mem_append.mp he with hh | hh
      · exact lt_trans (hprecol e hh) (by omega)
      · rw [hScol e hh]
        omega
    -- block hypothesis for the remaining offsets
    have hblocks' : ∀ (j : Nat), j < cps'.length → ∀ (i : Nat)
        (hi : i < (sortSlice a.toNat b.toNat l).length),
        ((b :: cps').getD j 0).toNat ≤ i → (i : Int) < (b :: cps').getD (j + 1) 0 →
        ((sortSlice a.toNat b.toNat l).get ⟨i, hi⟩).col = (k + 1) + j := by
      intro j hj i hi hlo hhi
      have hil : i < l.length := by
        rw [hlen'] at hi
        exact hi
      have hbi : b.toNat ≤ i := by
        have hble' := pairwise_head_le_getD hchain' j (by omega)
        have := Int.toNat_le_toNat hble'
        omega
      have hcol := hblocks (j + 1) (by simpa using hj) i hil hlo hhi
      have hidx : b.toNat + (i - b.toNat) = i := by omega
      have hget : (sortSlice a.toNat b.toNat l).get ⟨i, hi⟩ = l.get ⟨i, hil⟩ := by
        rw [← get_idx_congr _ hidx hil, ← get_idx_congr _ hidx
          (by rw [hlen']; exact hil : i < (sortSlice a.toNat b.toNat l).length)]
        exact hgetBeyond (i - b.toNat) (by omega)
      rw [hget, hcol]
      omega
    have hmain := ih b (k + 1) (sortSlice a.toNat b.toNat l) hb0 hchain'
      (by rw [hlen']; exact hlast') hpre' hprecol' hblocks'
    rw [sortRanges_cons_cons]
    exact ⟨hmain.1, hmain.2.1.trans hmapl', hmain.2.2.trans hperm'⟩

/-! ### Coalescing and compaction -/

theorem coalesceAux_map_key (l : List Entry) : ∀ (x : Entry),
    (coalesceAux x l).map (fun e => (e.row, e.col)) =
      (x :: l).map (fun e => (e.row, e.col)) := by
  induction l with
  | nil => intro x; rfl
  | cons y rest ih =>
    intro x
    rw [coalesceAux]
    split_ifs with h
    · simp only [List.map_cons]
      rw [ih]
      simp
    · simp only [List.map_cons]
      rw [ih]
      simp

theorem coalesce_map_key (l : List Entry) :
    (coalesce l).map (fun e => (e.row, e.col)) = l.map (fun e => (e.row, e.col)) := by
  cases l with
  | nil => rfl
  | cons x rest => exact coalesceAux_map_key rest x

theorem key_mem_of_mem_coalesce {z : Entry} {l : List Entry} (h : z ∈ coalesce l) :
    ∃ w ∈ l, w.row = z.row ∧ w.col = z.col := by
  have hmem : (z.row, z.col) ∈ l.map (fun e => (e.row, e.col)) := by
    rw [← coalesce_map_key]
    exact List.mem_map_of_mem _ h
  obtain ⟨w, hw, hweq⟩ := List.mem_map.mp hmem
  exact ⟨w, hw, congrArg Prod.fst hweq, congrArg Prod.snd hweq⟩

/-- After coalescing a (column, row)-sorted entry list and dropping the zero
values, the surviving entries have strictly increasing (column, row) keys. -/
theorem pairwise_lexLt_filter_coalesceAux (l : List Entry) : ∀ (x : Entry),
    List.Pairwise lexLe (x :: l) →
    List.Pairwise lexLt ((coalesceAux x l).filter fun e => e.val ≠ GoFloat.finite 0) := by
  induction l with
  | nil =>
    intro x _
    exact (List.pairwise_singleton lexLt x).filter _
  | cons y rest ih =>
    intro x hp
    rw [coalesceAux]
    split_ifs with hkey
    · rw [List.filter_cons_of_neg (by simp)]
      apply ih
      rw [List.pairwise_cons]
      exact ⟨fun z hz => (List.pairwise_cons.mp hp.of_cons).1 z hz,
        (List.pairwise_cons.mp hp.of_cons).2⟩
    · by_cases hx : x.val ≠ GoFloat.finite 0
      · rw [List.filter_cons_of_pos (by simpa using hx)]
        rw [List.pairwise_cons]
        constructor
        · intro z hz
          have hz' : z ∈ coalesceAux y rest := List.mem_of_mem_filter hz
          have hkeys : (z.row, z.col) ∈ (y :: rest).map (fun e => (e.row, e.col)) := by
            rw [← coalesceAux_map_key]
            exact List.mem_map_of_mem _ hz'
          obtain ⟨w, hw, hweq⟩ := List.mem_map.mp hkeys
          have hwr : w.row = z.row := congrArg Prod.fst hweq
          have hwc : w.col = z.col := congrArg Prod.snd hweq
          have hxw : lexLt x w := by
            rcases List.mem_cons.mp hw with rfl | hw'
            · exact lexLt_of_lexLe_of_key_ne ((List.pairwise_cons.mp hp).1 w (by simp))
                (fun hc => hkey ⟨hc.1.symm, hc.2.symm⟩)
            · have hxy : lexLt x y := lexLt_of_lexLe_of_key_ne
                ((List.pairwise_cons.mp hp).1 y (by simp))
                (fun hc => hkey ⟨hc.1.symm, hc.2.symm⟩)
              have hyw : lexLe y w := (List.pairwise_cons.mp hp.of_cons).1 w hw'
              exact lexLt_of_lexLt_of_lexLe hxy hyw
          exact lexLt_congr_right hwr.symm hwc.symm hxw
        · exact ih y hp.of_cons
      · rw [List.filter_cons_of_neg (by simpa using hx)]
        exact ih y hp.of_cons

theorem pairwise_lexLt_filter_coalesce {l : List Entry} (h : List.Pairwise lexLe l) :
    List.Pairwise lexLt ((coalesce l).filter fun e => e.val ≠ GoFloat.finite 0) := by
  cases l with
  | nil => simp [coalesce]
  | cons x rest => exact pairwise_lexLt_filter_coalesceAux rest x h

/-! ### The full conversion pipeline -/

/-- The surviving entries of the conversion pipeline have strictly increasing
(column, row) keys, and inherit the lower-triangle bounds of the input. -/
theorem pipeline_strict (size : Int) (es : List Entry) (hsize : 0 ≤ size)
    (hb : ∀ e ∈ es, 0 ≤ e.col ∧ e.col ≤ e.row ∧ e.row < size) :
    List.Pairwise lexLt ((coalesce (sortRanges
        (compressCol size ((List.insertionSort colLe es).map Entry.col))
        (List.insertionSort colLe es))).filter fun e => e.val ≠ GoFloat.finite 0) ∧
    (∀ e ∈ (coalesce (sortRanges
        (compressCol size ((List.insertionSort colLe es).map Entry.col))
        (List.insertionSort colLe es))).filter fun e => e.val ≠ GoFloat.finite 0,
      0 ≤ e.col ∧ e.col ≤ e.row ∧ e.row < size) := by
  set t1 := List.insertionSort colLe es with ht1def
  set cp := compressCol size (t1.map Entry.col) with hcpdef
  have hs1 : List.Sorted colLe t1 := List.sorted_insertionSort _ _
  have hperm1 : t1.Perm es := List.perm_insertionSort _ _
  have hbt1 : ∀ e ∈ t1, 0 ≤ e.col ∧ e.col ≤ e.row ∧ e.row < size := by
    intro e he
    exact hb e (hperm1.mem_iff.mp he)
  have hbc : ∀ c ∈ t1.map Entry.col, 0 ≤ c ∧ c < size := by
    intro c hc
    obtain ⟨e, he, rfl⟩ := List.mem_map.mp hc
    obtain ⟨h1, h2, h3⟩ := hbt1 e he
    exact ⟨h1, by omega⟩
  have hcp_getD : ∀ (u : Nat), u < (size + 1).toNat → cp.getD u 0 =
      ((t1.map Entry.col).countP (fun c => decide (c < (u : Int))) : Int) :=
    compressCol_getD size (t1.map Entry.col) hbc
  have hcp_len : cp.length = (size + 1).toNat := compressCol_length _ _
  have hpair : List.Pairwise (· ≤ ·) cp := by
    rw [List.pairwise_iff_getElem]
    intro u v hu hv huv
    rw [← List.getD_eq_getElem _ 0 hu, ← List.getD_eq_getElem _ 0 hv]
    rw [hcp_getD u (by omega), hcp_getD v (by omega)]
    have hm : (t1.map Entry.col).countP (fun c => decide (c < (u : Int))) ≤
        (t1.map Entry.col).countP (fun c => decide (c < (v : Int))) := by
      apply List.countP_mono_left
      intro c _ hc
      simp only [decide_eq_true_eq] at *
      omega
    exact_mod_cast hm
  have hlastD : cp.getD (cp.length - 1) 0 = (t1.length : Int) := by
    have hj : cp.length - 1 = size.toNat := by omega
    rw [hj, hcp_getD size.toNat (by omega)]
    have hall : (t1.map Entry.col).countP (fun c => decide (c < ((size.toNat : Nat) : Int))) =
        (t1.map Entry.col).length := by
      apply List.countP_eq_length.mpr
      intro c hc
      obtain ⟨hc1, hc2⟩ := hbc c hc
      simp only [decide_eq_true_eq]
      omega
    rw [hall, List.length_map]
  obtain ⟨a, cps, hcpeq⟩ : ∃ a cps, cp = a :: cps := by
    cases hc : cp with
    | nil =>
      rw [hc] at hcp_len
      simp at hcp_len
      omega
    | cons a cps => exact ⟨a, cps, rfl⟩
  have ha0 : a = 0 := by
    have h0 : cp.getD 0 0 = a := by rw [hcpeq]; rfl
    have hz : (t1.map Entry.col).countP (fun c => decide (c < ((0 : Nat) : Int))) = 0 := by
      apply List.countP_eq_zero.mpr
      intro c hc
      obtain ⟨hc1, _⟩ := hbc c hc
      simp only [decide_eq_true_eq]
      omega
    have := hcp_getD 0 (by omega)
    rw [hz] at this
    rw [h0] at this
    simpa using this
  have hcps_len : cps.length = size.toNat := by
    have : cp.length = cps.length + 1 := by rw [hcpeq]; rfl
    omega
  have hmain := sortRanges_main cps a 0 t1
    (by omega)
    (by rw [← hcpeq]; exact hpair)
    (by
      have h1 : (a :: cps).getD cps.length 0 = cp.getD (cp.length - 1) 0 := by
        rw [hcpeq]
        congr 1
      rw [h1, hlastD])
    (by
      have : a.toNat = 0 := by omega
      rw [this]
      simp)
    (by
      have : a.toNat = 0 := by omega
      rw [this]
      intro e he
      simp at he)
    (by
      intro v hv i hi hlo hhi
      have hbe : ∀ e ∈ t1, 0 ≤ e.col ∧ e.col < size := by
        intro e he
        obtain ⟨h1, h2, h3⟩ := hbt1 e he
        exact ⟨h1, by omega⟩
      have hh : compressCol size (t1.map Entry.col) = a :: cps := by
        rw [← hcpdef, hcpeq]
      have hcol := col_at_of_sorted size t1 hs1 hbe (v : Int) (by omega) (by omega)
        i hi ?_ ?_
      · rw [hcol]
        omega
      · rw [Int.toNat_natCast, hh]
        exact hlo
      · rw [Int.toNat_natCast, hh]
        exact hhi)
  rw [← hcpeq] at hmain
  obtain ⟨hs2, hmap2, hperm2⟩ := hmain
  constructor
  · exact pairwise_lexLt_filter_coalesce hs2
  · intro e he
    have he1 : e ∈ coalesce (sortRanges cp t1) := List.mem_of_mem_filter he
    obtain ⟨w, hw, hwr, hwc⟩ := key_mem_of_mem_coalesce he1
    have hw1 : w ∈ t1 := hperm2.mem_iff.mp hw
    obtain ⟨h1, h2, h3⟩ := hbt1 w hw1
    rw [hwr, hwc] at *
    exact ⟨by omega, by omega, by omega⟩

/-- Column-range consistency of the compression body: in the produced
compressed arrays, the rows of column `k`'s range strictly increase and are
all `≥ k`. -/
theorem compressStep_column_ranges (m : Matrix) (hwf : Wf m) (k i j : Nat)
    (hk : (k : Int) < m.Size) :
    ((((compressStep m).ColPos.getD k 0).toNat ≤ i → i < j →
      ((j : Int) < (compressStep m).ColPos.getD (k + 1) 0) →
      (compressStep m).RowIndexes.getD i 0 < (compressStep m).RowIndexes.getD j 0) ∧
     (((compressStep m).ColPos.getD k 0).toNat ≤ i →
      ((i : Int) < (compressStep m).ColPos.getD (k + 1) 0) →
      (k : Int) ≤ (compressStep m).RowIndexes.getD i 0)) := by
  have hsize : 0 ≤ m.Size := hwf.2.1
  have hent : ∀ e ∈ toEntries m, 0 ≤ e.col ∧ e.col ≤ e.row ∧ e.row < m.Size := hwf.2.2.2.2
  obtain ⟨hstrict, hb4⟩ := pipeline_strict m.Size (toEntries m) hsize hent
  set t4 := (coalesce (sortRanges
      (compressCol m.Size ((List.insertionSort colLe (toEntries m)).map Entry.col))
      (List.insertionSort colLe (toEntries m)))).filter
      (fun e => e.val ≠ GoFloat.finite 0) with ht4
  have hColPos : (compressStep m).ColPos = compressCol m.Size (t4.map Entry.col) := rfl
  have hRows : (compressStep m).RowIndexes = t4.map Entry.row := rfl
  have hsorted4 : List.Sorted colLe t4 := hstrict.imp (fun h => colLe_of_lexLt h)
  have hb4e : ∀ e ∈ t4, 0 ≤ e.col ∧ e.col < m.Size := by
    intro e he
    obtain ⟨h1, h2, h3⟩ := hb4 e he
    exact ⟨h1, by omega⟩
  have hb4c : ∀ c ∈ t4.map Entry.col, 0 ≤ c ∧ c < m.Size := by
    intro c hc
    obtain ⟨e, he, rfl⟩ := List.mem_map.mp hc
    exact hb4e e he
  have hgetD := compressCol_getD m.Size (t4.map Entry.col) hb4c
  have hupper : ∀ (v : Nat) (hv : v < t4.length),
      (compressStep m).RowIndexes.getD v 0 = (t4.get ⟨v, hv⟩).row := by
    intro v hv
    rw [hRows, List.getD_eq_getElem _ _ (by rw [List.length_map]; exact hv),
      List.getElem_map]
    rfl
  have hlen_of_lt : ∀ (v : Nat), ((v : Int) < (compressStep m).ColPos.getD (k + 1) 0) →
      v < t4.length := by
    intro v hv
    rw [hColPos, hgetD (k + 1) (by omega)] at hv
    have hle := List.countP_le_length (fun c => decide (c < ((k + 1 : Nat) : Int)))
      (l := t4.map Entry.col)
    rw [List.length_map] at hle
    omega
  constructor
  · intro h1 hij h2
    have hj4 : j < t4.length := hlen_of_lt j h2
    have hi4 : i < t4.length := by omega
    have hcoli : (t4.get ⟨i, hi4⟩).col = (k : Int) := by
      apply col_at_of_sorted m.Size t4 hsorted4 hb4e (k : Int) (by omega) hk i hi4
      · rw [Int.toNat_natCast, ← hColPos]
        exact h1
      · rw [Int.toNat_natCast, ← hColPos]
        have hj' : (i : Int) < (j : Int) := by exact_mod_cast hij
        exact lt_trans hj' h2
    have hcolj : (t4.get ⟨j, hj4⟩).col = (k : Int) := by
      apply col_at_of_sorted m.Size t4 hsorted4 hb4e (k : Int) (by omega) hk j hj4
      · rw [Int.toNat_natCast, ← hColPos]
        omega
      · rw [Int.toNat_natCast, ← hColPos]
        exact h2
    have hlex := List.pairwise_iff_getElem.mp hstrict i j hi4 hj4 hij
    rw [hupper i hi4, hupper j hj4]
    rcases hlex with hcc | ⟨_, hrr⟩
    · exfalso
      rw [show t4[i] = t4.get ⟨i, hi4⟩ from rfl, show t4[j] = t4.get ⟨j, hj4⟩ from rfl] at hcc
      rw [hcoli, hcolj] at hcc
      exact lt_irrefl _ hcc
    · exact hrr
  · intro h1 h2
    have hi4 : i < t4.length := hlen_of_lt i h2
    have hcoli : (t4.get ⟨i, hi4⟩).col = (k : Int) := by
      apply col_at_of_sorted m.Size t4 hsorted4 hb4e (k : Int) (by omega) hk i hi4
      · rw [Int.toNat_natCast, ← hColPos]
        exact h1
      · rw [Int.toNat_natCast, ← hColPos]
        exact h2
    have hmem : t4.get ⟨i, hi4⟩ ∈ t4 := List.get_mem t4 i hi4
    obtain ⟨hb1, hb2, hb3⟩ := hb4 _ hmem
    rw [hupper i hi4, ← hcoli]
    exact hb2

/-- Helper: membership in a one-element conditional list. -/
theorem mem_ite_singleton {α : Type} [DecidableEq α] (c : Prop) [Decidable c] (x a : α) :
    (a ∈ if c then [x] else []) ↔ c ∧ a = x := by
  split_ifs with h <;> simp [h]

/-- C2: on a size-3 matrix created empty, the six `put` calls of the source's
example followed by `TransformTo(Ssm)` produce exactly
`Values = [1, 3, 2, 7, 8]`, `RowIndexes = [0, 1, 1, 2, 2]`,
`ColPos = [0, 2, 4, 5]`, the two `(1,1)` entries having merged into the single
value `2`. -/
theorem c2_duplicate_coalescing :
    New 3 = some { Format := Tm, Size := 3, Values := [], RowIndexes := [], ColPos := [] } ∧
    transformTo
      (applyPuts { Format := Tm, Size := 3, Values := [], RowIndexes := [], ColPos := [] }
        [(2, 1, .finite 7), (0, 0, .finite 1), (1, 1, .finite 1),
         (1, 1, .finite 1), (1, 0, .finite 3), (2, 2, .finite 8)]) Ssm =
      ({ Format := Ssm, Size := 3,
         Values := [.finite 1, .finite 3, .finite 2, .finite 7, .finite 8],
         RowIndexes := [0, 1, 1, 2, 2],
         ColPos := [0, 2, 4, 5] }, []) := by
  exact ⟨rfl, by with_unfolding_all rfl⟩

/-- C3 counterexample: the claim says `create(size)` succeeds for every
integer size including negative ones, but `New (-1)` fails (in Go,
`make([]float64, 0, -1)` panics with a negative capacity). -/
theorem c3_counterexample : New (-1) = none := rfl

/-- C3 (amended): for every size `s ≥ 0`, `New s` returns a new empty
triplet-format matrix; for negative sizes the construction fails (the
capacity hint panics).  A container of size `≤ 0` accepts no entry: every
subsequent `put` is rejected by the insertion range checks and leaves the
matrix unchanged. -/
theorem c3_amended :
    (∀ s : Int, 0 ≤ s →
      New s = some { Format := Tm, Size := s, Values := [], RowIndexes := [], ColPos := [] }) ∧
    (∀ s : Int, s ≤ 0 → ∀ m0, New s = some m0 → ∀ r c x,
      (put m0 r c x).2 ≠ [] ∧ (put m0 r c x).1 = m0) := by
  constructor
  · intro s hs
    simp [New, not_lt.mpr hs]
  · intro s hs m0 hnew r c x
    by_cases h : s < 0
    · simp [New, h] at hnew
    · have hs0 : s = 0 := le_antisymm hs (not_lt.mp h)
      subst hs0
      rw [New, if_neg h] at hnew
      obtain rfl := Option.some.inj hnew
      have herr : putErrs
          { Format := Tm, Size := 0, Values := [], RowIndexes := [], ColPos := [] }
          r c x ≠ [] := by
        simp only [putErrs]
        split_ifs <;> simp_all
      refine ⟨?_, ?_⟩ <;> simp [put, herr]

/-- C4: `put(-1, 99, NaN)` on a size-3 triplet matrix fails with exactly the
four aggregated complaints: negative row, column out of range, row less than
column, NaN value.  In general (on any triplet-format matrix) `put` reports
every violated range/ordering/value precondition at once: each complaint is
present in the returned error list precisely when its condition is violated. -/
theorem c4_aggregate_validation :
    (put { Format := Tm, Size := 3, Values := [], RowIndexes := [], ColPos := [] }
        (-1) 99 GoFloat.nan).2 =
      [PutErr.rowNeg, PutErr.colOut, PutErr.rowLtCol, PutErr.nanValue] ∧
    (∀ (m : Matrix) (r c : Int) (x : GoFloat), m.Format = Tm →
      (PutErr.rowNeg ∈ (put m r c x).2 ↔ r < 0) ∧
      (PutErr.rowOut ∈ (put m r c x).2 ↔ r ≥ m.Size) ∧
      (PutErr.colNeg ∈ (put m r c x).2 ↔ c < 0) ∧
      (PutErr.colOut ∈ (put m r c x).2 ↔ c ≥ m.Size) ∧
      (PutErr.rowLtCol ∈ (put m r c x).2 ↔ r < c) ∧
      (PutErr.nanValue ∈ (put m r c x).2 ↔ x.isNaN) ∧
      (PutErr.infValue ∈ (put m r c x).2 ↔ x.isInf)) := by
  constructor
  · decide
  · intro m r c x hf
    have hsnd : (put m r c x).2 = putErrs m r c x := by
      by_cases h : putErrs m r c x = []
      · rw [put]
        simp only [h]
        split_ifs <;> simp [h]
      · simp [put, h]
    rw [hsnd]
    simp only [putErrs, hf]
    refine ⟨?_, ?_, ?_, ?_, ?_, ?_, ?_⟩ <;>
      simp [List.mem_append, mem_ite_singleton]

/-- C5: whenever `put` or `TransformTo` returns an error (a nonempty
complaint list), the matrix is left exactly as it was before the call —
format, size and all three arrays included. -/
theorem c5_no_partial_mutation (m : Matrix) :
    (∀ r c x, (put m r c x).2 ≠ [] → (put m r c x).1 = m) ∧
    (∀ mt, (transformTo m mt).2 ≠ [] → (transformTo m mt).1 = m) := by
  constructor
  · intro r c x h
    rw [put] at *
    by_cases he : putErrs m r c x = []
    · simp only [he] at h ⊢
      split_ifs at h ⊢ <;> simp_all
    · simp [he]
  · intro mt h
    rw [transformTo] at *
    split_ifs at h ⊢ <;> simp_all

/-- C6: a successful `put(r, c, v)` implies `c ≤ r` (the stored entry, if
any, lies on or below the diagonal), and any call with `c > r` fails and
leaves the matrix unchanged — entries strictly above the diagonal are
rejected, never silently reflected. -/
theorem c6_triangle_invariant (m : Matrix) (r c : Int) (x : GoFloat) :
    ((put m r c x).2 = [] → c ≤ r) ∧
    (r < c → (put m r c x).2 ≠ [] ∧ (put m r c x).1 = m) := by
  have hsnd : (put m r c x).2 = [] → putErrs m r c x = [] := by
    intro h
    by_contra he
    simp [put, he] at h
  constructor
  · intro h
    by_contra hcr
    have hrc : r < c := lt_of_not_le hcr
    have hne : putErrs m r c x ≠ [] := by
      rw [putErrs]
      split_ifs with h1 <;> simp [hrc]
    exact hne (hsnd h)
  · intro hrc
    have he : putErrs m r c x ≠ [] := by
      rw [putErrs]
      split_ifs with h1 <;> simp [hrc]
    exact ⟨by simp [put, he], by simp [put, he]⟩

/-- C7: on a triplet-format matrix, `put(r, c, 0.0)` with otherwise-valid
`r` and `c` always succeeds and is a pure no-op: the matrix (hence the length
of each of the three arrays) is unchanged. -/
theorem c7_zero_noop (m : Matrix) (r c : Int)
    (hf : m.Format = Tm) (hr0 : 0 ≤ r) (hr : r < m.Size)
    (hc0 : 0 ≤ c) (hc : c < m.Size) (hcr : c ≤ r) :
    put m r c (GoFloat.finite 0) = (m, []) ∧
    (put m r c (GoFloat.finite 0)).1.Values.length = m.Values.length ∧
    (put m r c (GoFloat.finite 0)).1.RowIndexes.length = m.RowIndexes.length ∧
    (put m r c (GoFloat.finite 0)).1.ColPos.length = m.ColPos.length := by
  have he : putErrs m r c (GoFloat.finite 0) = [] := by
    rw [putErrs]
    have h1 : ¬ r < 0 := not_lt.mpr hr0
    have h2 : ¬ r ≥ m.Size := not_le.mpr hr
    have h3 : ¬ c < 0 := not_lt.mpr hc0
    have h4 : ¬ c ≥ m.Size := not_le.mpr hc
    have h5 : ¬ r < c := not_lt.mpr hcr
    simp [hf, h1, h2, h3, h4, h5, GoFloat.isNaN, GoFloat.isInf]
  have : put m r c (GoFloat.finite 0) = (m, []) := by
    simp [put, he]
  simp [this]

/-- C8: for every matrix and every valid target format, converting twice in a
row leaves the matrix identical to converting once; the second conversion is
a successful no-op. -/
theorem c8_idempotent_conversion (m : Matrix) (mt : Nat)
    (h : mt = Ssm ∨ mt = Sltm ∨ mt = Tm) :
    transformTo (transformTo m mt).1 mt = ((transformTo m mt).1, []) ∧
    (transformTo (transformTo m mt).1 mt).1 = (transformTo m mt).1 := by
  have hfmt : (transformTo m mt).1.Format = mt := by
    rw [transformTo, if_pos h]
    split_ifs with h1 h2 <;> simp_all
  have : transformTo (transformTo m mt).1 mt = ((transformTo m mt).1, []) := by
    rw [transformTo, if_pos h, if_pos hfmt]
  exact ⟨this, by rw [this]⟩

/-- C9: converting between the two compressed variants, in either direction,
changes only the format tag and leaves `Values`, `RowIndexes` and `ColPos`
untouched; the round trip restores the original matrix exactly. -/
theorem c9_relabel_free (m : Matrix) :
    (m.Format = Ssm →
      transformTo m Sltm = ({ m with Format := Sltm }, []) ∧
      transformTo { m with Format := Sltm } Ssm = (m, [])) ∧
    (m.Format = Sltm →
      transformTo m Ssm = ({ m with Format := Ssm }, []) ∧
      transformTo { m with Format := Ssm } Sltm = (m, [])) := by
  obtain ⟨f, s, v, ri, cp⟩ := m
  constructor
  · rintro rfl
    constructor
    · rw [transformTo]
      norm_num [Ssm, Sltm, Tm]
    · rw [transformTo]
      norm_num [Ssm, Sltm, Tm]
  · rintro rfl
    constructor
    · rw [transformTo]
      norm_num [Ssm, Sltm, Tm]
    · rw [transformTo]
      norm_num [Ssm, Sltm, Tm]

/-- C10: on a matrix in either compressed format, `TransformTo(Tm)` is not
rejected: `Tm` passes the target-format validation, the call falls through to
the triplet-compression body (operating on the compressed arrays), and it
returns success with the format tag set to `Tm`. -/
theorem c10_compressed_to_triplet (m : Matrix)
    (h : m.Format = Ssm ∨ m.Format = Sltm) :
    transformTo m Tm = ({ compressStep m with Format := Tm }, []) ∧
    (transformTo m Tm).2 = [] ∧ (transformTo m Tm).1.Format = Tm := by
  have h1 : ¬ m.Format = Tm := by
    rcases h with h | h <;> rw [h] <;> norm_num [Ssm, Sltm, Tm]
  have h2 : ¬ ((m.Format = Ssm ∧ Tm = Sltm) ∨ (m.Format = Sltm ∧ Tm = Ssm)) := by
    norm_num [Ssm, Sltm, Tm]
  have : transformTo m Tm = ({ compressStep m with Format := Tm }, []) := by
    rw [transformTo, if_pos (Or.inr (Or.inr rfl)), if_neg h1, if_neg h2]
  exact ⟨this, by rw [this], by rw [this]⟩

/-- Under the joint-sort semantics that the source documents (its comments,
example and test all show `Values`/`RowIndexes` moving with `ColPos`), the
conversion satisfies the column-range invariant universally: for every matrix
built by `New` and a sequence of `put` calls, and converted to either
compressed format, every column range `[ColPos[k], ColPos[k+1])` of the
result holds strictly increasing row indices, each `≥ k`.  The Go executable
realises this semantics only while every `sort.Slice` call stays in the
insertion-sort regime (at most 12 elements); see
`c1_failing_input_intended_output` for what happens beyond it. -/
theorem intended_conversion_column_range_consistency
    (s : Int) (ops : List (Int × Int × GoFloat)) (mt : Nat)
    (hmt : mt = Ssm ∨ mt = Sltm)
    (m0 : Matrix) (hnew : New s = some m0)
    (M : Matrix) (hM : M = (transformTo (applyPuts m0 ops) mt).1)
    (k i j : Nat) (hk : (k : Int) < M.Size) :
    ((M.ColPos.getD k 0).toNat ≤ i → i < j → ((j : Int) < M.ColPos.getD (k + 1) 0) →
      M.RowIndexes.getD i 0 < M.RowIndexes.getD j 0) ∧
    ((M.ColPos.getD k 0).toNat ≤ i → ((i : Int) < M.ColPos.getD (k + 1) 0) →
      (k : Int) ≤ M.RowIndexes.getD i 0) := by
  have hwf : Wf (applyPuts m0 ops) := wf_applyPuts ops m0 (wf_new hnew)
  have hf : (applyPuts m0 ops).Format = Tm := hwf.1
  have hvalid : mt = Ssm ∨ mt = Sltm ∨ mt = Tm := by
    rcases hmt with rfl | rfl
    · exact Or.inl rfl
    · exact Or.inr (Or.inl rfl)
  have hne : ¬ (applyPuts m0 ops).Format = mt := by
    rcases hmt with rfl | rfl <;> rw [hf] <;> norm_num [Ssm, Sltm, Tm]
  have hne2 : ¬ (((applyPuts m0 ops).Format = Ssm ∧ mt = Sltm) ∨
      ((applyPuts m0 ops).Format = Sltm ∧ mt = Ssm)) := by
    rw [hf]
    norm_num [Ssm, Sltm, Tm]
  have hM' : M = { compressStep (applyPuts m0 ops) with Format := mt } := by
    rw [hM, transformTo, if_pos hvalid, if_neg hne, if_neg hne2]
  have hcol : M.ColPos = (compressStep (applyPuts m0 ops)).ColPos := by rw [hM']
  have hrow : M.RowIndexes = (compressStep (applyPuts m0 ops)).RowIndexes := by rw [hM']
  have hsz : M.Size = (applyPuts m0 ops).Size := by rw [hM']; rfl
  rw [hsz] at hk
  rw [hcol, hrow]
  exact compressStep_column_ranges (applyPuts m0 ops) hwf k i j hk

/-- Concrete instance of `intended_conversion_column_range_consistency` on
the source's example (which lies entirely inside the insertion-sort regime,
where the model and the executable coincide): in the converted matrix, column
1's range is `[2, 4)`; the rows there strictly increase (1 < 2) and the row at
position 2 is `≥ 1`. -/
theorem intended_conversion_column_range_consistency_example :
    ((⟨Ssm, 3, [.finite 1, .finite 3, .finite 2, .finite 7, .finite 8],
        [0, 1, 1, 2, 2], [0, 2, 4, 5]⟩ : Matrix)).RowIndexes.getD 2 0 <
      ((⟨Ssm, 3, [.finite 1, .finite 3, .finite 2, .finite 7, .finite 8],
        [0, 1, 1, 2, 2], [0, 2, 4, 5]⟩ : Matrix)).RowIndexes.getD 3 0 ∧
    ((1 : Nat) : Int) ≤ ((⟨Ssm, 3, [.finite 1, .finite 3, .finite 2, .finite 7, .finite 8],
        [0, 1, 1, 2, 2], [0, 2, 4, 5]⟩ : Matrix)).RowIndexes.getD 2 0 := by
  have hM : ((⟨Ssm, 3, [.finite 1, .finite 3, .finite 2, .finite 7, .finite 8],
      [0, 1, 1, 2, 2], [0, 2, 4, 5]⟩ : Matrix)) =
      (transformTo (applyPuts (⟨Tm, 3, [], [], []⟩ : Matrix)
        [(2, 1, .finite 7), (0, 0, .finite 1), (1, 1, .finite 1),
         (1, 1, .finite 1), (1, 0, .finite 3), (2, 2, .finite 8)]) Ssm).1 := by
    with_unfolding_all rfl
  have h := intended_conversion_column_range_consistency 3
    [(2, 1, .finite 7), (0, 0, .finite 1), (1, 1, .finite 1),
     (1, 1, .finite 1), (1, 0, .finite 3), (2, 2, .finite 8)]
    Ssm (Or.inl rfl) ⟨Tm, 3, [], [], []⟩ rfl _ hM 1 2 3 (by decide)
  exact ⟨h.1 (by decide) (by decide) (by decide), h.2 (by decide) (by decide)⟩

/-- C1 (code bug), evaluated at the failing input: thirteen diagonal entries
`put(r, r, 1.0)` for `r = 12, 11, …, 0` on a size-13 matrix, converted to
`SymmetricCompressed`.  Under the joint-sort semantics the source documents —
computed here — the result pairs every row with its own column
(`RowIndexes = [0, 1, …, 12]`, `ColPos = [0, 1, …, 13]`), and every column
range `k` holds exactly row `k`, as the claim requires.  The Go executable
diverges on this input: `sort.Slice` uses pdqsort for the 13-element column
sort, whose pivot selection and partition scans call the side-effecting
comparator without a paired swap of the same positions, desynchronizing
`Values`/`RowIndexes` from `ColPos` (first at positions (6, 3) during median
selection).  Hand-tracing Go 1.19+ gives `RowIndexes =
[11, 10, 3, 8, 7, 5, 6, 9, 2, 1, 0, 12, 4]` against `ColPos = [0, 1, …, 13]`,
so the ranges of columns 8, 9 and 10 hold rows 2, 1 and 0 — each `< k`,
contradicting the claim and the conversion semantics the source's own
comments and test document. -/
theorem c1_failing_input_intended_output :
    transformTo (applyPuts (⟨Tm, 13, [], [], []⟩ : Matrix)
        [(12, 12, .finite 1), (11, 11, .finite 1), (10, 10, .finite 1),
         (9, 9, .finite 1), (8, 8, .finite 1), (7, 7, .finite 1),
         (6, 6, .finite 1), (5, 5, .finite 1), (4, 4, .finite 1),
         (3, 3, .finite 1), (2, 2, .finite 1), (1, 1, .finite 1),
         (0, 0, .finite 1)]) Ssm =
      ((⟨Ssm, 13,
          [.finite 1, .finite 1, .finite 1, .finite 1, .finite 1, .finite 1,
           .finite 1, .finite 1, .finite 1, .finite 1, .finite 1, .finite 1,
           .finite 1],
          [0, 1, 2, 3, 4, 5, 6, 7, 8, 9, 10, 11, 12],
          [0, 1, 2, 3, 4, 5, 6, 7, 8, 9, 10, 11, 12, 13]⟩ : Matrix), []) := by
  with_unfolding_all rfl

/-- Witness for C3 (amended), at sizes `2` and `0` with a concrete rejected
insertion on the empty container. -/
theorem c3_amended_witness :
    New 2 = some (⟨Tm, 2, [], [], []⟩ : Matrix) ∧
    (put (⟨Tm, 0, [], [], []⟩ : Matrix) 0 0 (GoFloat.finite 1)).2 ≠ [] ∧
    (put (⟨Tm, 0, [], [], []⟩ : Matrix) 0 0 (GoFloat.finite 1)).1 =
      (⟨Tm, 0, [], [], []⟩ : Matrix) := by
  refine ⟨c3_amended.1 2 (by decide), ?_, ?_⟩
  · exact (c3_amended.2 0 le_rfl _ rfl 0 0 (GoFloat.finite 1)).1
  · exact (c3_amended.2 0 le_rfl _ rfl 0 0 (GoFloat.finite 1)).2

/-- Witness for C4's general aggregation on the concrete scenario. -/
theorem c4_aggregate_validation_witness :
    PutErr.colOut ∈ (put (⟨Tm, 3, [], [], []⟩ : Matrix) (-1) 99 GoFloat.nan).2 ↔
      (99 : Int) ≥ (3 : Int) := by
  exact (c4_aggregate_validation.2 ⟨Tm, 3, [], [], []⟩ (-1) 99 GoFloat.nan rfl).2.2.2.1

/-- Witness for C5: a failing `put` (column above the diagonal) and a failing
`TransformTo` (unknown target tag) both leave a concrete matrix unchanged. -/
theorem c5_no_partial_mutation_witness :
    (put (⟨Tm, 3, [], [], []⟩ : Matrix) 1 2 (GoFloat.finite 5)).1 =
      (⟨Tm, 3, [], [], []⟩ : Matrix) ∧
    (transformTo (⟨Tm, 3, [], [], []⟩ : Matrix) 9).1 = (⟨Tm, 3, [], [], []⟩ : Matrix) := by
  constructor
  · exact (c5_no_partial_mutation ⟨Tm, 3, [], [], []⟩).1 1 2 (GoFloat.finite 5)
      (by with_unfolding_all decide)
  · exact (c5_no_partial_mutation ⟨Tm, 3, [], [], []⟩).2 9 (by decide)

/-- Witness for C6, at a successful on-diagonal-side insertion and a rejected
above-diagonal insertion. -/
theorem c6_triangle_invariant_witness :
    ((1 : Int) ≤ 2) ∧
    (put (⟨Tm, 3, [], [], []⟩ : Matrix) 1 2 (GoFloat.finite 4)).2 ≠ [] ∧
    (put (⟨Tm, 3, [], [], []⟩ : Matrix) 1 2 (GoFloat.finite 4)).1 =
      (⟨Tm, 3, [], [], []⟩ : Matrix) := by
  refine ⟨(c6_triangle_invariant ⟨Tm, 3, [], [], []⟩ 2 1 (GoFloat.finite 4)).1
      (by with_unfolding_all decide), ?_⟩
  exact (c6_triangle_invariant ⟨Tm, 3, [], [], []⟩ 1 2 (GoFloat.finite 4)).2 (by decide)

/-- Witness for C7 on a concrete populated triplet matrix. -/
theorem c7_zero_noop_witness :
    put (⟨Tm, 3, [.finite 7], [2], [1]⟩ : Matrix) 2 1 (GoFloat.finite 0) =
      ((⟨Tm, 3, [.finite 7], [2], [1]⟩ : Matrix), []) := by
  exact (c7_zero_noop ⟨Tm, 3, [.finite 7], [2], [1]⟩ 2 1 rfl (by decide) (by decide)
    (by decide) (by decide) (by decide)).1

/-- Witness for C8 at a concrete conversion of a triplet matrix to `Ssm`. -/
theorem c8_idempotent_conversion_witness :
    transformTo (transformTo (⟨Tm, 2, [.finite 5], [1], [0]⟩ : Matrix) Ssm).1 Ssm =
      ((transformTo (⟨Tm, 2, [.finite 5], [1], [0]⟩ : Matrix) Ssm).1, []) := by
  exact (c8_idempotent_conversion ⟨Tm, 2, [.finite 5], [1], [0]⟩ Ssm (Or.inl rfl)).1

/-- Witness for C9 on the compressed matrix of the source's example. -/
theorem c9_relabel_free_witness :
    transformTo
        (⟨Ssm, 3, [.finite 1, .finite 3, .finite 2, .finite 7, .finite 8],
          [0, 1, 1, 2, 2], [0, 2, 4, 5]⟩ : Matrix) Sltm =
      ((⟨Sltm, 3, [.finite 1, .finite 3, .finite 2, .finite 7, .finite 8],
          [0, 1, 1, 2, 2], [0, 2, 4, 5]⟩ : Matrix), []) := by
  exact ((c9_relabel_free ⟨Ssm, 3, [.finite 1, .finite 3, .finite 2, .finite 7, .finite 8],
    [0, 1, 1, 2, 2], [0, 2, 4, 5]⟩).1 rfl).1

/-- Witness for C10 on the compressed matrix of the source's example. -/
theorem c10_compressed_to_triplet_witness :
    (transformTo
        (⟨Ssm, 3, [.finite 1, .finite 3, .finite 2, .finite 7, .finite 8],
          [0, 1, 1, 2, 2], [0, 2, 4, 5]⟩ : Matrix) Tm).2 = [] ∧
    (transformTo
        (⟨Ssm, 3, [.finite 1, .finite 3, .finite 2, .finite 7, .finite 8],
          [0, 1, 1, 2, 2], [0, 2, 4, 5]⟩ : Matrix) Tm).1.Format = Tm := by
  exact (c10_compressed_to_triplet ⟨Ssm, 3, [.finite 1, .finite 3, .finite 2, .finite 7,
    .finite 8], [0, 1, 1, 2, 2], [0, 2, 4, 5]⟩ (Or.inl rfl)).2

end sl
